import Mathlib

/-!
Shallow embedding of the catalog segmentation parser of `src/app.py`
(class `MuzayedeParser`): the line classifier `_is_fiyat`, the asset
extraction `_extract_image_bytes`, and the single-pass lot segmenter
`parse`, together with proofs of the spec's claims about them.

A body element is reduced to a `Node` (its trimmed text, its
image-presence flag, and the list of embedded-image relationship
identifiers found inside it).  The three `while` loops of `parse`
(`j`-scan, line collection, outer cursor loop) are embedded as
structurally recursive functions on a fuel argument; each loop's
cursor strictly increases while it runs, so fuel `nodes.length - start`
is exact, and the wrappers `findJ`, `collectLines`, `parseLoop` supply
precisely that fuel.
-/

/-- One body-level element: trimmed text, image flag, and the `r:embed`
identifiers of the `a:blip` elements inside it (`none` when the
attribute is absent). -/
structure Node where
  text : String
  is_img : Bool
  blips : List (Option String)
deriving Repr, DecidableEq

/-- One emitted artwork record (`artworks.append({...})` in `parse`). -/
structure Lot where
  lot_no : Nat
  sahip : String
  sanatci : String
  eser_adi : String
  detay : String
  gorsel_url : String
  satis_fiyati : String
deriving Repr, DecidableEq

/-- The document's relationship table `doc_part.rels`: identifier to
blob; `some none` models an entry whose `target_part.blob` access
raises. -/
abbrev Rels := List (String × Option (List Nat))

/-- The injected upload capability `CloudinaryService.upload`:
`none` models a raised exception. -/
abbrev UploadFn := List Nat → String → Option String

/-- Total indexing into the node list (every access in the source is
guarded by an explicit bounds check, so the default is never read by
the embedded code on the guarded paths). -/
def nd (nodes : List Node) (m : Nat) : Node := nodes.getD m ⟨"", false, []⟩

/- ### Line classifier `_is_fiyat` (src/app.py:238-240)

`re.search(r'\d[\d\.,]+\s*(TL|₺)', text, re.IGNORECASE)`.  The
character classes `[\d\.,]`, `\s` and the alternation `(TL|₺)` are
pairwise disjoint on their first characters, so the backtracking
search is equivalent to the maximal-munch matcher below. -/

/-- `[\d\.,]` (ASCII digits; the texts handled carry no other decimal
digits). -/
def isClassCh (c : Char) : Bool := c.isDigit || c == '.' || c == ','

/-- `\s` (the ASCII whitespace characters). -/
def isPySpace (c : Char) : Bool :=
  c == ' ' || c == '\t' || c == '\n' || c == '\r' || c == '\x0b' || c == '\x0c'

/-- `(TL|₺)` under `re.IGNORECASE`, at the head of the remaining input. -/
def matchCur : List Char → Bool
  | [] => false
  | [c1] => c1 == '₺'
  | c1 :: c2 :: _ => c1 == '₺' || ((c1 == 'T' || c1 == 't') && (c2 == 'L' || c2 == 'l'))

/-- `\s*(TL|₺)` at the head of the remaining input. -/
def matchSpacesCur : List Char → Bool
  | [] => false
  | c :: rest => if isPySpace c then matchSpacesCur rest else matchCur (c :: rest)

/-- `[\d\.,]*\s*(TL|₺)` at the head of the remaining input. -/
def matchGroupStar : List Char → Bool
  | [] => false
  | c :: rest => if isClassCh c then matchGroupStar rest else matchSpacesCur (c :: rest)

/-- `[\d\.,]+\s*(TL|₺)` at the head of the remaining input. -/
def matchAfterDigit : List Char → Bool
  | [] => false
  | c :: rest => if isClassCh c then matchGroupStar rest else false

/-- `re.search`: try the pattern at every position. -/
def fiyatSearch : List Char → Bool
  | [] => false
  | c :: rest => (c.isDigit && matchAfterDigit rest) || fiyatSearch rest

/-- `MuzayedeParser._is_fiyat`. -/
def is_fiyat (text : String) : Bool := fiyatSearch text.toList

/- ### Asset extraction `_extract_image_bytes` (src/app.py:242-254) -/

/-- `rId in doc_part.rels` / `doc_part.rels[rId]`. -/
def lookupRel (rels : Rels) (r : String) : Option (Option (List Nat)) :=
  (rels.find? (fun p => p.1 == r)).map Prod.snd

/-- `MuzayedeParser._extract_image_bytes`: first `a:blip`'s `r:embed`
identifier, resolved against the relationship table; `none` on any
failure. -/
def extract_image_bytes (blips : List (Option String)) (rels : Rels) :
    Option (List Nat) :=
  match blips with
  | [] => none
  | b :: _ =>
    match b with
    | none => none
    | some r =>
      if r = "" then none
      else
        match lookupRel rels r with
        | none => none
        | some none => none
        | some (some blob) => some blob

/- ### The segmenter `parse` (src/app.py:256-361) -/

/-- Pre-scan `toplam_eser`: image-bearing nodes that have at least one
following node (src/app.py:280-284). -/
def toplam_eser (nodes : List Node) : Nat :=
  ((List.range nodes.length).filter
    (fun idx => (nd nodes idx).is_img && decide (idx + 1 < nodes.length))).length

/-- Inner scan for the first meaningful node (src/app.py:299-302):
`while j < len(nodes) and not nodes[j]["text"] and not nodes[j]["is_img"]: j += 1`. -/
def findJF : Nat → List Node → Nat → Nat
  | 0, _, j => j
  | fuel + 1, nodes, j =>
    if j < nodes.length ∧ (nd nodes j).text = "" ∧ (nd nodes j).is_img = false then
      findJF fuel nodes (j + 1)
    else j

/-- The `j`-scan with its exact fuel. -/
def findJ (nodes : List Node) (j : Nat) : Nat := findJF (nodes.length - j) nodes j

/-- Line collection loop (src/app.py:313-324): gathers up to 6
non-empty text lines, stopping at an image node or at two consecutive
empty-text nodes; returns the lines and the final cursor `k`. -/
def collectF : Nat → List Node → Nat → List String → List String × Nat
  | 0, _, k, lines => (lines, k)
  | fuel + 1, nodes, k, lines =>
    if k < nodes.length ∧ lines.length < 6 then
      if (nd nodes k).is_img = true then (lines, k)
      else if (nd nodes k).text ≠ "" then
        collectF fuel nodes (k + 1) (lines ++ [(nd nodes k).text])
      else if k + 1 < nodes.length ∧ (nd nodes (k + 1)).text = "" then (lines, k)
      else collectF fuel nodes (k + 1) lines
    else (lines, k)

/-- Line collection with its exact fuel. -/
def collectLines (nodes : List Node) (k : Nat) (lines : List String) :
    List String × Nat :=
  collectF (nodes.length - k) nodes k lines

/-- `satis_fiyati` selection (src/app.py:330-334): last line of the
given list matching `_is_fiyat`, else `""`. -/
def lastFiyat (ls : List String) : String :=
  (ls.reverse.find? (fun l => is_fiyat l)).getD ""

/-- The record built at src/app.py:326-334 and 346-354 from the owner
line, the collected lines and the (possibly empty) upload URL. -/
def mkArtwork (lot_counter : Nat) (sahip : String) (lines : List String)
    (url : String) : Lot :=
  Lot.mk lot_counter sahip (lines.getD 0 "") (lines.getD 1 "") (lines.getD 2 "")
    url (lastFiyat (lines.drop 2))

/-- `gorsel_url` computation (src/app.py:336-344): empty unless
`upload_images` is set and both extraction and upload succeed. -/
def computeUrl (upload_images : Bool) (upload : UploadFn) (node : Node)
    (rels : Rels) (lot_counter : Nat) : String :=
  if upload_images then
    match extract_image_bytes node.blips rels with
    | none => ""
    | some bytes =>
      match upload bytes ("lot_" ++ toString lot_counter) with
      | none => ""
      | some url => url
  else ""

/-- Outer cursor loop (src/app.py:290-359), returning the artwork list
and the list of `(done, total)` progress-callback invocations. -/
def parseLoopF : Nat → List Node → Rels → Bool → UploadFn → Nat → Nat →
    List Lot × List (Nat × Nat)
  | 0, _, _, _, _, _, _ => ([], [])
  | fuel + 1, nodes, rels, ui, up, i, c =>
    if i < nodes.length then
      if (nd nodes i).is_img = true then
        if findJ nodes (i + 1) < nodes.length ∧
            (nd nodes (findJ nodes (i + 1))).is_img = false then
          let j := findJ nodes (i + 1)
          let lk := collectLines nodes (j + 1) []
          let lot := mkArtwork (c + 1) (nd nodes j).text lk.1
            (computeUrl ui up (nd nodes i) rels (c + 1))
          let rest := parseLoopF fuel nodes rels ui up lk.2 (c + 1)
          (lot :: rest.1, (c + 1, toplam_eser nodes) :: rest.2)
        else parseLoopF fuel nodes rels ui up (i + 1) c
      else parseLoopF fuel nodes rels ui up (i + 1) c
    else ([], [])

/-- The outer loop with its exact fuel. -/
def parseLoop (nodes : List Node) (rels : Rels) (ui : Bool) (up : UploadFn)
    (i c : Nat) : List Lot × List (Nat × Nat) :=
  parseLoopF (nodes.length - i) nodes rels ui up i c

/-- `MuzayedeParser.parse`: the emitted artwork list. -/
def parse (nodes : List Node) (rels : Rels) (ui : Bool) (up : UploadFn) :
    List Lot :=
  (parseLoop nodes rels ui up 0 0).1

/-- The `(done, total)` arguments of the progress-callback invocations,
in call order (src/app.py:356-357). -/
def parseCalls (nodes : List Node) (rels : Rels) (ui : Bool) (up : UploadFn) :
    List (Nat × Nat) :=
  (parseLoop nodes rels ui up 0 0).2

/-- The image at `i` produces a lot: `i` is in bounds and image-bearing,
and the first meaningful node after it exists and is not an image
(src/app.py:305). -/
def emitsAt (nodes : List Node) (i : Nat) : Prop :=
  i < nodes.length ∧ (nd nodes i).is_img = true ∧
    findJ nodes (i + 1) < nodes.length ∧
    (nd nodes (findJ nodes (i + 1))).is_img = false

/-- The lines collected for the block whose image sits at `i`. -/
def blockLines (nodes : List Node) (i : Nat) : List String :=
  (collectLines nodes (findJ nodes (i + 1) + 1) []).1

/-- The lots the segmenter builds for the blocks at the given image
indices, numbering them from `c + 1` onwards. -/
def lotsOf (nodes : List Node) (rels : Rels) (ui : Bool) (up : UploadFn) :
    List Nat → Nat → List Lot
  | [], _ => []
  | i :: rest, c =>
    mkArtwork (c + 1) (nd nodes (findJ nodes (i + 1))).text (blockLines nodes i)
      (computeUrl ui up (nd nodes i) rels (c + 1)) ::
      lotsOf nodes rels ui up rest (c + 1)

/- ### Basic loop lemmas -/

theorem findJF_ge (nodes : List Node) :
    ∀ fuel j, j ≤ findJF fuel nodes j := by
  intro fuel
  induction fuel with
  | zero => intro j; simp [findJF]
  | succ f ih =>
    intro j
    simp only [findJF]
    split
    · exact Nat.le_trans (Nat.le_succ j) (ih (j + 1))
    · exact Nat.le_refl j

theorem findJ_ge (nodes : List Node) (j : Nat) : j ≤ findJ nodes j :=
  findJF_ge nodes _ j

theorem findJF_min (nodes : List Node) :
    ∀ fuel j m, j ≤ m → m < findJF fuel nodes j →
      (nd nodes m).text = "" ∧ (nd nodes m).is_img = false := by
  intro fuel
  induction fuel with
  | zero => intro j m hjm hm; simp [findJF] at hm; omega
  | succ f ih =>
    intro j m hjm hm
    simp only [findJF] at hm
    by_cases hcond : j < nodes.length ∧ (nd nodes j).text = "" ∧
        (nd nodes j).is_img = false
    · rw [if_pos hcond] at hm
      rcases Nat.lt_or_ge m (j + 1) with hlt | hge
      · have : m = j := by omega
        subst this
        exact ⟨hcond.2.1, hcond.2.2⟩
      · exact ih (j + 1) m hge hm
    · rw [if_neg hcond] at hm; omega

theorem findJ_min (nodes : List Node) (j m : Nat) (hjm : j ≤ m)
    (hm : m < findJ nodes j) :
    (nd nodes m).text = "" ∧ (nd nodes m).is_img = false :=
  findJF_min nodes _ j m hjm hm

theorem findJF_stop (nodes : List Node) :
    ∀ fuel j, nodes.length - j ≤ fuel → findJF fuel nodes j < nodes.length →
      (nd nodes (findJF fuel nodes j)).text ≠ "" ∨
        (nd nodes (findJF fuel nodes j)).is_img = true := by
  intro fuel
  induction fuel with
  | zero =>
    intro j hfuel hlt
    simp [findJF] at hlt ⊢
    omega
  | succ f ih =>
    intro j hfuel hlt
    by_cases hcond : j < nodes.length ∧ (nd nodes j).text = "" ∧
        (nd nodes j).is_img = false
    · have heq : findJF (f + 1) nodes j = findJF f nodes (j + 1) := by
        simp only [findJF, if_pos hcond]
      rw [heq] at hlt ⊢
      exact ih (j + 1) (by omega) hlt
    · have heq : findJF (f + 1) nodes j = j := by
        simp only [findJF, if_neg hcond]
      rw [heq] at hlt ⊢
      by_cases himg : (nd nodes j).is_img = true
      · exact Or.inr himg
      · left
        intro htext
        exact hcond ⟨hlt, htext, by simpa using himg⟩

theorem findJ_stop (nodes : List Node) (j : Nat)
    (hlt : findJ nodes j < nodes.length) :
    (nd nodes (findJ nodes j)).text ≠ "" ∨
      (nd nodes (findJ nodes j)).is_img = true :=
  findJF_stop nodes _ j (Nat.le_refl _) hlt

theorem collectF_ge (nodes : List Node) :
    ∀ fuel k lines, k ≤ (collectF fuel nodes k lines).2 := by
  intro fuel
  induction fuel with
  | zero => intro k lines; simp [collectF]
  | succ f ih =>
    intro k lines
    simp only [collectF]
    split
    · split
      · exact Nat.le_refl k
      · split
        · exact Nat.le_trans (Nat.le_succ k) (ih (k + 1) _)
        · split
          · exact Nat.le_refl k
          · exact Nat.le_trans (Nat.le_succ k) (ih (k + 1) _)
    · exact Nat.le_refl k

theorem collectLines_ge (nodes : List Node) (k : Nat) (lines : List String) :
    k ≤ (collectLines nodes k lines).2 :=
  collectF_ge nodes _ k lines

theorem collectF_len_le (nodes : List Node) :
    ∀ fuel k lines, lines.length ≤ 6 →
      ((collectF fuel nodes k lines).1).length ≤ 6 := by
  intro fuel
  induction fuel with
  | zero => intro k lines h; simpa [collectF] using h
  | succ f ih =>
    intro k lines h
    simp only [collectF]
    split
    · next hcond =>
      split
      · exact h
      · split
        · exact ih (k + 1) _ (by simp; omega)
        · split
          · exact h
          · exact ih (k + 1) _ h
    · exact h

theorem collectF_mem (nodes : List Node) :
    ∀ fuel k lines s, s ∈ (collectF fuel nodes k lines).1 →
      s ∈ lines ∨ s ≠ "" := by
  intro fuel
  induction fuel with
  | zero => intro k lines s hs; simp [collectF] at hs; exact Or.inl hs
  | succ f ih =>
    intro k lines s hs
    simp only [collectF] at hs
    split at hs
    · split at hs
      · exact Or.inl hs
      · split at hs
        · next hne =>
          rcases ih (k + 1) _ s hs with hmem | hne2
          · rcases List.mem_append.1 hmem with h1 | h2
            · exact Or.inl h1
            · right
              have : s = (nd nodes k).text := by simpa using h2
              rw [this]; exact hne
          · exact Or.inr hne2
        · split at hs
          · exact Or.inl hs
          · exact ih (k + 1) _ s hs
    · exact Or.inl hs

/- ### Claim theorems -/

/-- C1: at an image-bearing node `i`, the segmenter finds the first
following meaningful node `j = findJ nodes (i+1)` by skipping nodes
with empty text and no image; when `j` exists and is not image-bearing
it carries non-empty text which becomes the new lot's owner, and a lot
is emitted; otherwise no lot is emitted for this image and the cursor
advances by exactly 1, leaving the following nodes unconsumed. -/
theorem c1_lot_creation (nodes : List Node) (rels : Rels) (ui : Bool)
    (up : UploadFn) (i c : Nat) (h : i < nodes.length)
    (himg : (nd nodes i).is_img = true) :
    (i + 1 ≤ findJ nodes (i + 1) ∧
      ∀ m, i + 1 ≤ m → m < findJ nodes (i + 1) →
        (nd nodes m).text = "" ∧ (nd nodes m).is_img = false) ∧
    (findJ nodes (i + 1) < nodes.length ∧
        (nd nodes (findJ nodes (i + 1))).is_img = false →
      (nd nodes (findJ nodes (i + 1))).text ≠ "" ∧
      ∃ rest,
        (parseLoop nodes rels ui up i c).1 =
          mkArtwork (c + 1) (nd nodes (findJ nodes (i + 1))).text
            (blockLines nodes i)
            (computeUrl ui up (nd nodes i) rels (c + 1)) :: rest) ∧
    (¬(findJ nodes (i + 1) < nodes.length ∧
        (nd nodes (findJ nodes (i + 1))).is_img = false) →
      parseLoop nodes rels ui up i c = parseLoop nodes rels ui up (i + 1) c) := by
  have hf : nodes.length - i = (nodes.length - (i + 1)) + 1 := by omega
  have hunfold : parseLoop nodes rels ui up i c =
      parseLoopF ((nodes.length - (i + 1)) + 1) nodes rels ui up i c := by
    rw [parseLoop, hf]
  refine ⟨⟨findJ_ge nodes (i + 1), fun m h1 h2 => findJ_min nodes (i + 1) m h1 h2⟩,
    ?_, ?_⟩
  · intro hj
    refine ⟨?_, ?_⟩
    · rcases findJ_stop nodes (i + 1) hj.1 with ht | himg2
      · exact ht
      · rw [hj.2] at himg2; exact absurd himg2 (by simp)
    · refine ⟨(parseLoopF (nodes.length - (i + 1)) nodes rels ui up
        (collectLines nodes (findJ nodes (i + 1) + 1) []).2 (c + 1)).1, ?_⟩
      rw [hunfold]
      simp only [parseLoopF, if_pos h, if_pos himg, if_pos hj, blockLines]
  · intro hnj
    rw [hunfold]
    simp only [parseLoopF, if_pos h, if_pos himg, if_neg hnj]
    rw [parseLoop]

theorem parseLoopF_lotnos (nodes : List Node) (rels : Rels) (ui : Bool)
    (up : UploadFn) :
    ∀ fuel i c,
      ((parseLoopF fuel nodes rels ui up i c).1.map Lot.lot_no) =
        List.range' (c + 1) (parseLoopF fuel nodes rels ui up i c).1.length := by
  intro fuel
  induction fuel with
  | zero => intro i c; simp [parseLoopF]
  | succ f ih =>
    intro i c
    by_cases h : i < nodes.length
    · by_cases himg : (nd nodes i).is_img = true
      · by_cases hj : findJ nodes (i + 1) < nodes.length ∧
            (nd nodes (findJ nodes (i + 1))).is_img = false
        · simp only [parseLoopF, if_pos h, if_pos himg, if_pos hj,
            List.map_cons, List.length_cons, List.range'_succ]
          rw [ih]
          rfl
        · simp only [parseLoopF, if_pos h, if_pos himg, if_neg hj]
          exact ih _ _
      · simp only [parseLoopF, if_pos h, if_neg himg]
        exact ih _ _
    · simp [parseLoopF, if_neg h]

theorem parse_lotnos (nodes : List Node) (rels : Rels) (ui : Bool)
    (up : UploadFn) :
    (parse nodes rels ui up).map Lot.lot_no =
      List.range' 1 (parse nodes rels ui up).length := by
  simpa [parse, parseLoop] using
    parseLoopF_lotnos nodes rels ui up (nodes.length - 0) 0 0

theorem parseLoopF_blocks (nodes : List Node) (rels : Rels) (ui : Bool)
    (up : UploadFn) :
    ∀ fuel i c, ∃ idxs : List Nat,
      List.Pairwise (· < ·) idxs ∧
      (∀ x ∈ idxs, i ≤ x ∧ emitsAt nodes x) ∧
      (parseLoopF fuel nodes rels ui up i c).1 = lotsOf nodes rels ui up idxs c := by
  intro fuel
  induction fuel with
  | zero => intro i c; exact ⟨[], List.Pairwise.nil, by simp, rfl⟩
  | succ f ih =>
    intro i c
    by_cases h : i < nodes.length
    · by_cases himg : (nd nodes i).is_img = true
      · by_cases hj : findJ nodes (i + 1) < nodes.length ∧
            (nd nodes (findJ nodes (i + 1))).is_img = false
        · obtain ⟨idxs, hpw, hall, heq⟩ :=
            ih (collectLines nodes (findJ nodes (i + 1) + 1) []).2 (c + 1)
          have hk : i + 2 ≤ (collectLines nodes (findJ nodes (i + 1) + 1) []).2 := by
            have h1 := findJ_ge nodes (i + 1)
            have h2 := collectLines_ge nodes (findJ nodes (i + 1) + 1) []
            omega
          refine ⟨i :: idxs, ?_, ?_, ?_⟩
          · refine List.Pairwise.cons (fun x hx => ?_) hpw
            have := (hall x hx).1
            omega
          · intro x hx
            rcases List.mem_cons.1 hx with h1 | h1
            · rw [h1]
              exact ⟨Nat.le_refl i, h, himg, hj.1, hj.2⟩
            · exact ⟨by have := (hall x h1).1; omega, (hall x h1).2⟩
          · simp only [parseLoopF, if_pos h, if_pos himg, if_pos hj]
            rw [heq]
            rfl
        · obtain ⟨idxs, hpw, hall, heq⟩ := ih (i + 1) c
          refine ⟨idxs, hpw,
            fun x hx => ⟨by have := (hall x hx).1; omega, (hall x hx).2⟩, ?_⟩
          simp only [parseLoopF, if_pos h, if_pos himg, if_neg hj]
          exact heq
      · obtain ⟨idxs, hpw, hall, heq⟩ := ih (i + 1) c
        refine ⟨idxs, hpw,
          fun x hx => ⟨by have := (hall x hx).1; omega, (hall x hx).2⟩, ?_⟩
        simp only [parseLoopF, if_pos h, if_neg himg]
        exact heq
    · refine ⟨[], List.Pairwise.nil, by simp, ?_⟩
      simp only [parseLoopF, if_neg h]
      rfl

/-- C2: for every node sequence and either setting of the upload flag
the emitted `lot_no` values are exactly `1, 2, …, k` in output order —
no gaps, no repeats — and the output is the block list taken at a
strictly increasing sequence of document positions, so no record is
reordered relative to document order. -/
theorem c2_lot_numbering (nodes : List Node) (rels : Rels) (ui : Bool)
    (up : UploadFn) :
    (parse nodes rels ui up).map Lot.lot_no =
      List.range' 1 (parse nodes rels ui up).length ∧
    ∃ idxs : List Nat, List.Pairwise (· < ·) idxs ∧
      (∀ x ∈ idxs, emitsAt nodes x) ∧
      parse nodes rels ui up = lotsOf nodes rels ui up idxs 0 := by
  refine ⟨parse_lotnos nodes rels ui up, ?_⟩
  obtain ⟨idxs, hpw, hall, heq⟩ :=
    parseLoopF_blocks nodes rels ui up (nodes.length - 0) 0 0
  exact ⟨idxs, hpw, fun x hx => (hall x hx).2, heq⟩

/-- The fields of a lot other than `gorsel_url` agree. -/
def SameText (a b : Lot) : Prop :=
  a.lot_no = b.lot_no ∧ a.sahip = b.sahip ∧ a.sanatci = b.sanatci ∧
    a.eser_adi = b.eser_adi ∧ a.detay = b.detay ∧
    a.satis_fiyati = b.satis_fiyati

theorem parseLoopF_up_irrel (nodes : List Node) (rels : Rels)
    (up1 up2 : UploadFn) :
    ∀ fuel i c, parseLoopF fuel nodes rels false up1 i c =
      parseLoopF fuel nodes rels false up2 i c := by
  intro fuel
  induction fuel with
  | zero => intro i c; rfl
  | succ f ih =>
    intro i c
    by_cases h : i < nodes.length
    · by_cases himg : (nd nodes i).is_img = true
      · by_cases hj : findJ nodes (i + 1) < nodes.length ∧
            (nd nodes (findJ nodes (i + 1))).is_img = false
        · simp only [parseLoopF, if_pos h, if_pos himg, if_pos hj]
          rw [ih]
          rfl
        · simp only [parseLoopF, if_pos h, if_pos himg, if_neg hj]
          exact ih _ _
      · simp only [parseLoopF, if_pos h, if_neg himg]
        exact ih _ _
    · simp only [parseLoopF, if_neg h]

theorem parseLoopF_sametext (nodes : List Node) (rels : Rels) (ui : Bool)
    (up1 up2 : UploadFn) :
    ∀ fuel i c, List.Forall₂ SameText
      (parseLoopF fuel nodes rels ui up1 i c).1
      (parseLoopF fuel nodes rels ui up2 i c).1 := by
  intro fuel
  induction fuel with
  | zero => intro i c; exact List.Forall₂.nil
  | succ f ih =>
    intro i c
    by_cases h : i < nodes.length
    · by_cases himg : (nd nodes i).is_img = true
      · by_cases hj : findJ nodes (i + 1) < nodes.length ∧
            (nd nodes (findJ nodes (i + 1))).is_img = false
        · simp only [parseLoopF, if_pos h, if_pos himg, if_pos hj]
          exact List.Forall₂.cons ⟨rfl, rfl, rfl, rfl, rfl, rfl⟩ (ih _ _)
        · simp only [parseLoopF, if_pos h, if_pos himg, if_neg hj]
          exact ih _ _
      · simp only [parseLoopF, if_pos h, if_neg himg]
        exact ih _ _
    · simp only [parseLoopF, if_neg h]
      exact List.Forall₂.nil

/-- C7: with `upload_images` off, two runs on the same node sequence
return identical lists; and for either flag value all fields except
`gorsel_url` are independent of the injected upload capability (the
only source of network/IO nondeterminism in the pass). -/
theorem c7_determinism (nodes : List Node) (rels : Rels)
    (up1 up2 : UploadFn) (ui : Bool) :
    parse nodes rels false up1 = parse nodes rels false up2 ∧
    List.Forall₂ SameText (parse nodes rels ui up1) (parse nodes rels ui up2) := by
  constructor
  · unfold parse parseLoop
    rw [parseLoopF_up_irrel]
  · exact parseLoopF_sametext nodes rels ui up1 up2 _ 0 0

theorem computeUrl_upfail (up : UploadFn) (hup : ∀ b k, up b k = none)
    (node : Node) (rels : Rels) (n : Nat) :
    computeUrl true up node rels n = "" := by
  simp only [computeUrl, if_pos]
  cases hex : extract_image_bytes node.blips rels with
  | none => rfl
  | some bytes => simp [hup]

theorem parseLoopF_upfail (nodes : List Node) (rels : Rels) (up upX : UploadFn)
    (hup : ∀ b k, up b k = none) :
    ∀ fuel i c, parseLoopF fuel nodes rels true up i c =
      parseLoopF fuel nodes rels false upX i c := by
  intro fuel
  induction fuel with
  | zero => intro i c; rfl
  | succ f ih =>
    intro i c
    by_cases h : i < nodes.length
    · by_cases himg : (nd nodes i).is_img = true
      · by_cases hj : findJ nodes (i + 1) < nodes.length ∧
            (nd nodes (findJ nodes (i + 1))).is_img = false
        · simp only [parseLoopF, if_pos h, if_pos himg, if_pos hj]
          rw [ih, computeUrl_upfail up hup]
          rfl
        · simp only [parseLoopF, if_pos h, if_pos himg, if_neg hj]
          exact ih _ _
      · simp only [parseLoopF, if_pos h, if_neg himg]
        exact ih _ _
    · simp only [parseLoopF, if_neg h]

/-- C8: asset failures are non-fatal and local.  Extraction returns
`none` when the node has no embedded-image reference, when the
identifier attribute is absent or empty, when the identifier does not
resolve in the relationship table, or when reading the resolved blob
raises; a lot's `gorsel_url` stays empty when its extraction or its
upload fails; and when every upload attempt fails, the parse result
with uploads enabled is the very list produced with uploads disabled:
every lot is still emitted, with text fields intact and `gorsel_url`
empty, and parsing continues past the failure. -/
theorem c8_asset_failures :
    (∀ rels : Rels, extract_image_bytes [] rels = none) ∧
    (∀ (bs : List (Option String)) (rels : Rels),
      extract_image_bytes (none :: bs) rels = none) ∧
    (∀ (bs : List (Option String)) (rels : Rels),
      extract_image_bytes (some "" :: bs) rels = none) ∧
    (∀ (r : String) (bs : List (Option String)) (rels : Rels),
      lookupRel rels r = none → extract_image_bytes (some r :: bs) rels = none) ∧
    (∀ (r : String) (bs : List (Option String)) (rels : Rels),
      lookupRel rels r = some none →
        extract_image_bytes (some r :: bs) rels = none) ∧
    (∀ (ui : Bool) (up : UploadFn) (node : Node) (rels : Rels) (n : Nat),
      extract_image_bytes node.blips rels = none →
        computeUrl ui up node rels n = "") ∧
    (∀ (up : UploadFn) (node : Node) (rels : Rels) (n : Nat) (bytes : List Nat),
      extract_image_bytes node.blips rels = some bytes →
        up bytes ("lot_" ++ toString n) = none →
        computeUrl true up node rels n = "") ∧
    (∀ (nodes : List Node) (rels : Rels) (up : UploadFn),
      (∀ b k, up b k = none) →
        ∀ upX : UploadFn, parse nodes rels true up = parse nodes rels false upX) := by
  refine ⟨fun rels => rfl, fun bs rels => rfl, fun bs rels => rfl, ?_, ?_, ?_, ?_, ?_⟩
  · intro r bs rels hr
    by_cases h0 : r = ""
    · simp [extract_image_bytes, h0]
    · simp [extract_image_bytes, h0, hr]
  · intro r bs rels hr
    by_cases h0 : r = ""
    · simp [extract_image_bytes, h0]
    · simp [extract_image_bytes, h0, hr]
  · intro ui up node rels n hex
    cases ui
    · rfl
    · simp [computeUrl, hex]
  · intro up node rels n bytes hex hup
    simp [computeUrl, hex, hup]
  · intro nodes rels up hup upX
    unfold parse parseLoop
    rw [parseLoopF_upfail nodes rels up upX hup]

theorem parseLoopF_calls (nodes : List Node) (rels : Rels) (ui : Bool)
    (up : UploadFn) :
    ∀ fuel i c, (parseLoopF fuel nodes rels ui up i c).2 =
      ((parseLoopF fuel nodes rels ui up i c).1).map
        (fun L => (L.lot_no, toplam_eser nodes)) := by
  intro fuel
  induction fuel with
  | zero => intro i c; rfl
  | succ f ih =>
    intro i c
    by_cases h : i < nodes.length
    · by_cases himg : (nd nodes i).is_img = true
      · by_cases hj : findJ nodes (i + 1) < nodes.length ∧
            (nd nodes (findJ nodes (i + 1))).is_img = false
        · simp only [parseLoopF, if_pos h, if_pos himg, if_pos hj, List.map_cons]
          rw [ih]
          rfl
        · simp only [parseLoopF, if_pos h, if_pos himg, if_neg hj]
          exact ih _ _
      · simp only [parseLoopF, if_pos h, if_neg himg]
        exact ih _ _
    · simp only [parseLoopF, if_neg h]
      rfl

theorem range_filter_img (nodes : List Node) :
    ∀ m, m ≤ nodes.length →
      ((List.range m).filter (fun idx => (nd nodes idx).is_img)).length =
        ((nodes.take m).filter (fun n => n.is_img)).length := by
  intro m
  induction m with
  | zero => intro _; simp
  | succ m ih =>
    intro hm
    rw [List.range_succ, List.take_succ, List.filter_append, List.filter_append,
      List.length_append, List.length_append, ih (by omega)]
    congr 1
    have hx : nodes[m]? = some (nd nodes m) := by
      rw [List.getElem?_eq_getElem (by omega : m < nodes.length)]
      unfold nd
      rw [List.getD_eq_getElem?_getD, List.getElem?_eq_getElem (by omega)]
      rfl
    rw [hx]
    cases himg : (nd nodes m).is_img <;> simp [himg]

theorem toplam_eser_eq (nodes : List Node) :
    toplam_eser nodes = (nodes.dropLast.filter (fun n => n.is_img)).length := by
  rw [List.dropLast_eq_take]
  unfold toplam_eser
  cases hlen : nodes.length with
  | zero => simp
  | succ m =>
    have h1 : (List.range (m + 1)).filter
        (fun idx => (nd nodes idx).is_img && decide (idx + 1 < m + 1)) =
        (List.range m).filter (fun idx => (nd nodes idx).is_img) := by
      rw [List.range_succ, List.filter_append]
      have h2 : [m].filter
          (fun idx => (nd nodes idx).is_img && decide (idx + 1 < m + 1)) = [] := by
        simp
      rw [h2, List.append_nil]
      apply List.filter_congr
      intro x hx
      have hx2 : x + 1 < m + 1 := by
        have := List.mem_range.mp hx
        omega
      simp [hx2]
    rw [h1]
    have hm1 : m + 1 - 1 = m := rfl
    rw [hm1]
    exact range_filter_img nodes m (by omega)

/-- C9: the recorded progress-callback invocations are exactly one per
emitted lot, in order, with arguments `(lot_no, toplam_eser nodes)`;
`toplam_eser` counts the image-bearing nodes that have at least one
following node (an image that is the last node is excluded); and the
`done` arguments are non-decreasing across calls. -/
theorem c9_progress (nodes : List Node) (rels : Rels) (ui : Bool)
    (up : UploadFn) :
    parseCalls nodes rels ui up =
      (parse nodes rels ui up).map (fun L => (L.lot_no, toplam_eser nodes)) ∧
    toplam_eser nodes = (nodes.dropLast.filter (fun n => n.is_img)).length ∧
    List.Pairwise (fun a b : Nat × Nat => a.1 ≤ b.1)
      (parseCalls nodes rels ui up) := by
  have hcalls : parseCalls nodes rels ui up =
      (parse nodes rels ui up).map (fun L => (L.lot_no, toplam_eser nodes)) :=
    parseLoopF_calls nodes rels ui up _ 0 0
  refine ⟨hcalls, toplam_eser_eq nodes, ?_⟩
  rw [hcalls, List.pairwise_map]
  have h1 : List.Pairwise (· ≤ ·) ((parse nodes rels ui up).map Lot.lot_no) := by
    rw [parse_lotnos nodes rels ui up]
    exact (List.pairwise_lt_range' _ _).imp (fun hab => Nat.le_of_lt hab)
  rw [List.pairwise_map] at h1
  simpa using h1

theorem parseLoopF_mem (nodes : List Node) (rels : Rels) (ui : Bool)
    (up : UploadFn) :
    ∀ fuel i c L, L ∈ (parseLoopF fuel nodes rels ui up i c).1 →
      ∃ i2 n, emitsAt nodes i2 ∧
        L = mkArtwork n (nd nodes (findJ nodes (i2 + 1))).text
          (blockLines nodes i2) (computeUrl ui up (nd nodes i2) rels n) := by
  intro fuel
  induction fuel with
  | zero => intro i c L hL; simp [parseLoopF] at hL
  | succ f ih =>
    intro i c L hL
    by_cases h : i < nodes.length
    · by_cases himg : (nd nodes i).is_img = true
      · by_cases hj : findJ nodes (i + 1) < nodes.length ∧
            (nd nodes (findJ nodes (i + 1))).is_img = false
        · simp only [parseLoopF, if_pos h, if_pos himg, if_pos hj,
            List.mem_cons] at hL
          rcases hL with hL | hL
          · exact ⟨i, c + 1, ⟨h, himg, hj.1, hj.2⟩, by rw [hL]; rfl⟩
          · exact ih _ _ L hL
        · simp only [parseLoopF, if_pos h, if_pos himg, if_neg hj] at hL
          exact ih _ _ L hL
      · simp only [parseLoopF, if_pos h, if_neg himg] at hL
        exact ih _ _ L hL
    · simp only [parseLoopF, if_neg h] at hL
      simp at hL

theorem find?_decomp {α : Type} (p : α → Bool) :
    ∀ (l : List α) (a : α), l.find? p = some a →
      ∃ l1 l2, l = l1 ++ a :: l2 ∧ (∀ x ∈ l1, p x = false) ∧ p a = true := by
  intro l
  induction l with
  | nil => intro a h; simp at h
  | cons x xs ih =>
    intro a h
    by_cases hx : p x = true
    · rw [List.find?_cons_of_pos _ hx] at h
      cases h
      exact ⟨[], xs, rfl, by simp, hx⟩
    · rw [List.find?_cons_of_neg _ (by simpa using hx)] at h
      obtain ⟨l1, l2, heq, hall, hpa⟩ := ih a h
      refine ⟨x :: l1, l2, by rw [heq]; rfl, ?_, hpa⟩
      intro y hy
      rcases List.mem_cons.1 hy with hy | hy
      · rw [hy]; simpa using hx
      · exact hall y hy

theorem lastFiyat_spec (ls : List String) :
    (lastFiyat ls = "" ∧ ∀ s ∈ ls, is_fiyat s = false) ∨
    (is_fiyat (lastFiyat ls) = true ∧
      ∃ pre post, ls = pre ++ lastFiyat ls :: post ∧
        ∀ s ∈ post, is_fiyat s = false) := by
  cases hf : ls.reverse.find? (fun l => is_fiyat l) with
  | none =>
    left
    have hlf : lastFiyat ls = "" := by rw [lastFiyat, hf]; rfl
    refine ⟨hlf, ?_⟩
    intro s hs
    have := List.find?_eq_none.mp hf s (by simpa using hs)
    simpa using this
  | some a =>
    right
    have hlf : lastFiyat ls = a := by rw [lastFiyat, hf]; rfl
    rw [hlf]
    refine ⟨by simpa using List.find?_some hf, ?_⟩
    obtain ⟨l1, l2, heq, hall, hpa⟩ := find?_decomp _ _ _ hf
    refine ⟨l2.reverse, l1.reverse, ?_, ?_⟩
    · have h2 := congrArg List.reverse heq
      simpa [List.reverse_append] using h2
    · intro s hs
      exact hall s (by simpa using hs)

/-- C3: every emitted lot's `sanatci`, `eser_adi`, `detay` are the
first, second, third of the non-empty text lines collected after the
owner line, each defaulting to `""` when missing; those collected
lines number at most 6, so a 7th candidate line can never reach the
first three mapped fields. -/
theorem c3_field_mapping (nodes : List Node) (rels : Rels) (ui : Bool)
    (up : UploadFn) (L : Lot) (hL : L ∈ parse nodes rels ui up) :
    ∃ i, emitsAt nodes i ∧
      (blockLines nodes i).length ≤ 6 ∧
      (∀ s ∈ blockLines nodes i, s ≠ "") ∧
      L.sahip = (nd nodes (findJ nodes (i + 1))).text ∧
      L.sanatci = (blockLines nodes i).getD 0 "" ∧
      L.eser_adi = (blockLines nodes i).getD 1 "" ∧
      L.detay = (blockLines nodes i).getD 2 "" := by
  obtain ⟨i2, n, hem, hLeq⟩ :=
    parseLoopF_mem nodes rels ui up _ 0 0 L (by simpa [parse, parseLoop] using hL)
  refine ⟨i2, hem, ?_, ?_, ?_, ?_, ?_, ?_⟩
  · have := collectF_len_le nodes
      (nodes.length - (findJ nodes (i2 + 1) + 1)) (findJ nodes (i2 + 1) + 1) []
      (by simp)
    simpa [blockLines, collectLines] using this
  · intro s hs
    have hs2 : s ∈ (collectF (nodes.length - (findJ nodes (i2 + 1) + 1)) nodes
        (findJ nodes (i2 + 1) + 1) []).1 := by
      simpa [blockLines, collectLines] using hs
    rcases collectF_mem nodes _ _ _ s hs2 with hmem | hne
    · simp at hmem
    · exact hne
  · rw [hLeq]; rfl
  · rw [hLeq]; rfl
  · rw [hLeq]; rfl
  · rw [hLeq]; rfl

/-- C4: every emitted lot's `satis_fiyati` is the last (in document
order) of the collected lines from index 2 onward that matches the
monetary pattern, and `""` when none matches; on the spec's example
lines the rule picks `"12,500 TL"` even though it is not the final
line. -/
theorem c4_sale_price (nodes : List Node) (rels : Rels) (ui : Bool)
    (up : UploadFn) (L : Lot) (hL : L ∈ parse nodes rels ui up) :
    (∃ i, emitsAt nodes i ∧
      L.satis_fiyati = lastFiyat ((blockLines nodes i).drop 2) ∧
      ((L.satis_fiyati = "" ∧
          ∀ s ∈ (blockLines nodes i).drop 2, is_fiyat s = false) ∨
       (is_fiyat L.satis_fiyati = true ∧
          ∃ pre post, (blockLines nodes i).drop 2 =
              pre ++ L.satis_fiyati :: post ∧
            ∀ s ∈ post, is_fiyat s = false))) ∧
    lastFiyat (["Artist (1954)", "Oil on canvas", "60x80cm", "12,500 TL",
      "Signed lower right"].drop 2) = "12,500 TL" := by
  constructor
  · obtain ⟨i2, n, hem, hLeq⟩ :=
      parseLoopF_mem nodes rels ui up _ 0 0 L (by simpa [parse, parseLoop] using hL)
    have hsf : L.satis_fiyati = lastFiyat ((blockLines nodes i2).drop 2) := by
      rw [hLeq]; rfl
    refine ⟨i2, hem, hsf, ?_⟩
    rw [hsf]
    exact lastFiyat_spec ((blockLines nodes i2).drop 2)
  · decide

/-- C6: two consecutive empty-text nodes terminate line collection on
the spot, for every node sequence and any already-collected lines:
collection returns exactly the lines gathered so far with the cursor
at the first empty node, so no later node — in particular no later
non-empty text node — is added to the current block's lines. -/
theorem c6_double_empty_terminator (nodes : List Node) (lines : List String)
    (k : Nat) (hk : k < nodes.length) (himg : (nd nodes k).is_img = false)
    (ht : (nd nodes k).text = "") (hk1 : k + 1 < nodes.length)
    (ht1 : (nd nodes (k + 1)).text = "") :
    collectLines nodes k lines = (lines, k) := by
  have hf : nodes.length - k = (nodes.length - (k + 1)) + 1 := by omega
  rw [collectLines, hf]
  by_cases hlen : lines.length < 6
  · simp only [collectF, if_pos (And.intro hk hlen)]
    rw [if_neg (by simp [himg]), if_neg (by simp [ht]),
      if_pos (And.intro hk1 ht1)]
  · simp only [collectF]
    rw [if_neg (fun hcon => hlen hcon.2)]

/-- C10: the outer loop's cursor strictly increases on every
iteration: the non-emitting branches advance it by exactly 1, and the
emitting branch resumes at the line-collection stop point `k`, which
satisfies `k ≥ j + 1 ≥ i + 2` for the meaningful index
`j = findJ nodes (i+1)`.  `parse` is total by construction: all three
loops recurse structurally on the exact fuel `nodes.length - cursor`. -/
theorem c10_cursor_progress (nodes : List Node) (i : Nat) :
    i < i + 1 ∧
    i + 1 ≤ findJ nodes (i + 1) ∧
    findJ nodes (i + 1) + 1 ≤
      (collectLines nodes (findJ nodes (i + 1) + 1) []).2 ∧
    i + 2 ≤ (collectLines nodes (findJ nodes (i + 1) + 1) []).2 := by
  have h1 := findJ_ge nodes (i + 1)
  have h2 := collectLines_ge nodes (findJ nodes (i + 1) + 1) []
  omega

/- ### The monetary pattern, declaratively (for C5) -/

/-- `(TL|₺)` under `IGNORECASE`, as a predicate on the matched
characters. -/
def CurMarker (cur : List Char) : Prop :=
  cur = ['₺'] ∨
    ∃ c1 c2, cur = [c1, c2] ∧ (c1 = 'T' ∨ c1 = 't') ∧ (c2 = 'L' ∨ c2 = 'l')

/-- Declarative reading of the source pattern `\d[\d\.,]+\s*(TL|₺)`:
somewhere in the string, a digit, then at least one further
digit/`.`/`,` character, then optional whitespace, then a currency
marker. -/
def FiyatPattern (s : String) : Prop :=
  ∃ pre d grp sp cur post,
    s.toList = pre ++ d :: (grp ++ (sp ++ (cur ++ post))) ∧
    d.isDigit = true ∧ grp ≠ [] ∧
    (∀ c ∈ grp, isClassCh c = true) ∧
    (∀ c ∈ sp, isPySpace c = true) ∧ CurMarker cur

theorem space_not_class (c : Char) (h : isPySpace c = true) :
    isClassCh c = false := by
  simp only [isPySpace, Bool.or_eq_true, beq_iff_eq] at h
  rcases h with ⟨⟨⟨⟨h | h⟩ | h⟩ | h⟩ | h⟩ | h <;> subst h <;> decide

theorem curMarker_head (cur : List Char) (h : CurMarker cur) :
    ∃ c rest, cur = c :: rest ∧ isPySpace c = false ∧ isClassCh c = false := by
  rcases h with h | ⟨c1, c2, h, hc1, hc2⟩
  · exact ⟨'₺', [], h, by decide, by decide⟩
  · refine ⟨c1, [c2], h, ?_, ?_⟩ <;> rcases hc1 with h1 | h1 <;> subst h1 <;> decide

theorem matchCur_sound (cs : List Char) (h : matchCur cs = true) :
    ∃ cur post, cs = cur ++ post ∧ CurMarker cur := by
  match cs with
  | [] => simp [matchCur] at h
  | [c1] =>
    simp only [matchCur, beq_iff_eq] at h
    exact ⟨['₺'], [], by rw [h]; rfl, Or.inl rfl⟩
  | c1 :: c2 :: rest =>
    simp only [matchCur, Bool.or_eq_true, Bool.and_eq_true, beq_iff_eq] at h
    rcases h with h | ⟨h1, h2⟩
    · exact ⟨['₺'], c2 :: rest, by rw [h]; rfl, Or.inl rfl⟩
    · exact ⟨[c1, c2], rest, rfl, Or.inr ⟨c1, c2, rfl, h1, h2⟩⟩

theorem matchCur_complete (cur : List Char) (h : CurMarker cur)
    (post : List Char) : matchCur (cur ++ post) = true := by
  rcases h with h | ⟨c1, c2, h, hc1, hc2⟩
  · subst h
    cases post with
    | nil => decide
    | cons c2 rest => simp [matchCur]
  · subst h
    rcases hc1 with h1 | h1 <;> rcases hc2 with h2 | h2 <;> subst h1 <;> subst h2 <;>
      simp [matchCur]

theorem matchSpacesCur_sound :
    ∀ cs, matchSpacesCur cs = true →
      ∃ sp rest2, cs = sp ++ rest2 ∧ (∀ c ∈ sp, isPySpace c = true) ∧
        matchCur rest2 = true := by
  intro cs
  induction cs with
  | nil => intro h; simp [matchSpacesCur] at h
  | cons c rest ih =>
    intro h
    by_cases hsp : isPySpace c = true
    · rw [matchSpacesCur, if_pos hsp] at h
      obtain ⟨sp, rest2, heq, hall, hmc⟩ := ih h
      refine ⟨c :: sp, rest2, by rw [heq]; rfl, ?_, hmc⟩
      intro x hx
      rcases List.mem_cons.1 hx with h1 | h1
      · rw [h1]; exact hsp
      · exact hall x h1
    · rw [matchSpacesCur, if_neg hsp] at h
      exact ⟨[], c :: rest, rfl, by simp, h⟩

theorem matchSpacesCur_complete (sp : List Char)
    (hsp : ∀ c ∈ sp, isPySpace c = true) (cur : List Char) (h : CurMarker cur)
    (post : List Char) : matchSpacesCur (sp ++ (cur ++ post)) = true := by
  induction sp with
  | nil =>
    obtain ⟨c, rest, hcur, hc1, _⟩ := curMarker_head cur h
    have := matchCur_complete cur h post
    rw [hcur] at this ⊢
    simp only [List.nil_append, List.cons_append, matchSpacesCur]
    rw [if_neg (by simp [hc1])]
    simpa using this
  | cons s sp2 ih =>
    have hs : isPySpace s = true := hsp s (List.mem_cons_self s sp2)
    simp only [List.cons_append, matchSpacesCur]
    rw [if_pos hs]
    exact ih (fun c hc => hsp c (List.mem_cons_of_mem s hc))

theorem matchGroupStar_sound :
    ∀ cs, matchGroupStar cs = true →
      ∃ grp rest2, cs = grp ++ rest2 ∧ (∀ c ∈ grp, isClassCh c = true) ∧
        matchSpacesCur rest2 = true := by
  intro cs
  induction cs with
  | nil => intro h; simp [matchGroupStar] at h
  | cons c rest ih =>
    intro h
    by_cases hc : isClassCh c = true
    · rw [matchGroupStar, if_pos hc] at h
      obtain ⟨grp, rest2, heq, hall, hsc⟩ := ih h
      refine ⟨c :: grp, rest2, by rw [heq]; rfl, ?_, hsc⟩
      intro x hx
      rcases List.mem_cons.1 hx with h1 | h1
      · rw [h1]; exact hc
      · exact hall x h1
    · rw [matchGroupStar, if_neg hc] at h
      exact ⟨[], c :: rest, rfl, by simp, h⟩

theorem matchGroupStar_complete (grp : List Char)
    (hgrp : ∀ c ∈ grp, isClassCh c = true) (sp : List Char)
    (hsp : ∀ c ∈ sp, isPySpace c = true) (cur : List Char) (h : CurMarker cur)
    (post : List Char) :
    matchGroupStar (grp ++ (sp ++ (cur ++ post))) = true := by
  induction grp with
  | nil =>
    have hmsc := matchSpacesCur_complete sp hsp cur h post
    cases sp with
    | nil =>
      obtain ⟨c, rest, hcur, _, hc2⟩ := curMarker_head cur h
      rw [hcur] at hmsc ⊢
      simp only [List.nil_append, List.cons_append, matchGroupStar]
      rw [if_neg (by simp [hc2])]
      simpa using hmsc
    | cons s sp2 =>
      have hs : isPySpace s = true := hsp s (List.mem_cons_self s sp2)
      have hcls : isClassCh s = false := space_not_class s hs
      simp only [List.nil_append, List.cons_append, matchGroupStar]
      rw [if_neg (by simp [hcls])]
      simpa using hmsc
  | cons g grp2 ih =>
    have hg : isClassCh g = true := hgrp g (List.mem_cons_self g grp2)
    simp only [List.cons_append, matchGroupStar]
    rw [if_pos hg]
    exact ih (fun c hc => hgrp c (List.mem_cons_of_mem g hc))

theorem matchAfterDigit_sound (cs : List Char) (h : matchAfterDigit cs = true) :
    ∃ grp sp cur post, cs = grp ++ (sp ++ (cur ++ post)) ∧ grp ≠ [] ∧
      (∀ c ∈ grp, isClassCh c = true) ∧ (∀ c ∈ sp, isPySpace c = true) ∧
      CurMarker cur := by
  match cs with
  | [] => simp [matchAfterDigit] at h
  | c :: rest =>
    rw [matchAfterDigit] at h
    by_cases hc : isClassCh c = true
    · rw [if_pos hc] at h
      obtain ⟨grp2, rest2, heq, hall, hsc⟩ := matchGroupStar_sound rest h
      obtain ⟨sp, rest3, heq2, hallsp, hmc⟩ := matchSpacesCur_sound rest2 hsc
      obtain ⟨cur, post, heq3, hcm⟩ := matchCur_sound rest3 hmc
      refine ⟨c :: grp2, sp, cur, post, ?_, by simp, ?_, hallsp, hcm⟩
      · rw [heq, heq2, heq3]; rfl
      · intro x hx
        rcases List.mem_cons.1 hx with h1 | h1
        · rw [h1]; exact hc
        · exact hall x h1
    · rw [if_neg hc] at h
      exact absurd h (by simp)

theorem matchAfterDigit_complete (grp : List Char) (hne : grp ≠ [])
    (hgrp : ∀ c ∈ grp, isClassCh c = true) (sp : List Char)
    (hsp : ∀ c ∈ sp, isPySpace c = true) (cur : List Char) (h : CurMarker cur)
    (post : List Char) :
    matchAfterDigit (grp ++ (sp ++ (cur ++ post))) = true := by
  cases grp with
  | nil => exact absurd rfl hne
  | cons g grp2 =>
    have hg : isClassCh g = true := hgrp g (List.mem_cons_self g grp2)
    simp only [List.cons_append, matchAfterDigit]
    rw [if_pos hg]
    exact matchGroupStar_complete grp2
      (fun c hc => hgrp c (List.mem_cons_of_mem g hc)) sp hsp cur h post

theorem fiyatSearch_sound :
    ∀ cs, fiyatSearch cs = true →
      ∃ pre d rest, cs = pre ++ d :: rest ∧ d.isDigit = true ∧
        matchAfterDigit rest = true := by
  intro cs
  induction cs with
  | nil => intro h; simp [fiyatSearch] at h
  | cons c rest ih =>
    intro h
    rw [fiyatSearch, Bool.or_eq_true, Bool.and_eq_true] at h
    rcases h with ⟨hd, hm⟩ | h
    · exact ⟨[], c, rest, rfl, hd, hm⟩
    · obtain ⟨pre, d, rest2, heq, hd, hm⟩ := ih h
      exact ⟨c :: pre, d, rest2, by rw [heq]; rfl, hd, hm⟩

theorem fiyatSearch_complete :
    ∀ pre (d : Char) rest, d.isDigit = true → matchAfterDigit rest = true →
      fiyatSearch (pre ++ d :: rest) = true := by
  intro pre
  induction pre with
  | nil =>
    intro d rest hd hm
    simp only [List.nil_append, fiyatSearch]
    rw [hd, hm]
    rfl
  | cons c pre2 ih =>
    intro d rest hd hm
    simp only [List.cons_append, fiyatSearch, List.append_eq]
    rw [ih d rest hd hm]
    simp

/-- C5 counterexample: the claim asserts the classifier accepts every
text containing a single digit immediately followed by a currency
marker, but on `"5TL"` — the single digit `'5'` immediately followed
by the marker `TL` — it returns `false`: the pattern
`\d[\d\.,]+\s*(TL|₺)` demands at least one further digit/`.`/`,`
character after the first digit. -/
theorem c5_counterexample :
    is_fiyat "5TL" = false ∧ ("5TL").toList = ['5', 'T', 'L'] ∧
      ('5').isDigit = true ∧ CurMarker ['T', 'L'] :=
  ⟨by decide, by decide, by decide,
    Or.inr ⟨'T', 'L', rfl, Or.inl rfl, Or.inl rfl⟩⟩

/-- C5 (amended): `_is_fiyat` is a pure predicate returning `true` iff
the text contains a digit followed by at least one further
digit/`.`/`,` character, then optional whitespace, then a currency
marker (`TL` case-insensitively, or `₺`); a single digit immediately
followed by a marker is not accepted. -/
theorem c5_amended_classifier (s : String) :
    is_fiyat s = true ↔ FiyatPattern s := by
  constructor
  · intro h
    obtain ⟨pre, d, rest, heq, hd, hm⟩ := fiyatSearch_sound s.toList h
    obtain ⟨grp, sp, cur, post, heq2, hne, hgrp, hsp, hcm⟩ :=
      matchAfterDigit_sound rest hm
    exact ⟨pre, d, grp, sp, cur, post, by rw [heq, heq2], hd, hne, hgrp, hsp, hcm⟩
  · rintro ⟨pre, d, grp, sp, cur, post, heq, hd, hne, hgrp, hsp, hcm⟩
    rw [is_fiyat, heq]
    exact fiyatSearch_complete pre d _ hd
      (matchAfterDigit_complete grp hne hgrp sp hsp cur hcm post)

/- ### Concrete inputs for the witnesses -/

/-- An upload capability whose every call fails. -/
def upNone : UploadFn := fun _ _ => none

def nodesC1 : List Node :=
  [⟨"", true, []⟩, ⟨"", false, []⟩, ⟨"Owner", false, []⟩, ⟨"Artist", false, []⟩]

def nodesC3 : List Node :=
  [⟨"", true, []⟩, ⟨"Own", false, []⟩, ⟨"Art", false, []⟩, ⟨"Title", false, []⟩]

def lotC3 : Lot := Lot.mk 1 "Own" "Art" "Title" "" "" ""

def nodesC4 : List Node :=
  [⟨"", true, []⟩, ⟨"Own", false, []⟩, ⟨"Art", false, []⟩, ⟨"Oil", false, []⟩,
    ⟨"60x80cm", false, []⟩, ⟨"12,500 TL", false, []⟩, ⟨"Signed", false, []⟩]

def lotC4 : Lot := Lot.mk 1 "Own" "Art" "Oil" "60x80cm" "" "12,500 TL"

def nodesC6 : List Node :=
  [⟨"", false, []⟩, ⟨"", false, []⟩, ⟨"Later", false, []⟩]

def nodesC8 : List Node := [⟨"", true, [some "rId9"]⟩, ⟨"Own", false, []⟩]

/-- Witness for C1 on a concrete document: an image node, a skipped
empty node, then the owner line. -/
theorem c1_lot_creation_witness :
    (0 + 1 ≤ findJ nodesC1 (0 + 1) ∧
      ∀ m, 0 + 1 ≤ m → m < findJ nodesC1 (0 + 1) →
        (nd nodesC1 m).text = "" ∧ (nd nodesC1 m).is_img = false) ∧
    (findJ nodesC1 (0 + 1) < nodesC1.length ∧
        (nd nodesC1 (findJ nodesC1 (0 + 1))).is_img = false →
      (nd nodesC1 (findJ nodesC1 (0 + 1))).text ≠ "" ∧
      ∃ rest,
        (parseLoop nodesC1 [] false upNone 0 0).1 =
          mkArtwork (0 + 1) (nd nodesC1 (findJ nodesC1 (0 + 1))).text
            (blockLines nodesC1 0)
            (computeUrl false upNone (nd nodesC1 0) [] (0 + 1)) :: rest) ∧
    (¬(findJ nodesC1 (0 + 1) < nodesC1.length ∧
        (nd nodesC1 (findJ nodesC1 (0 + 1))).is_img = false) →
      parseLoop nodesC1 [] false upNone 0 0 =
        parseLoop nodesC1 [] false upNone (0 + 1) 0) :=
  c1_lot_creation nodesC1 [] false upNone 0 0 (by decide) (by decide)

/-- Witness for C3 on a concrete parsed lot. -/
theorem c3_field_mapping_witness :
    ∃ i, emitsAt nodesC3 i ∧
      (blockLines nodesC3 i).length ≤ 6 ∧
      (∀ s ∈ blockLines nodesC3 i, s ≠ "") ∧
      lotC3.sahip = (nd nodesC3 (findJ nodesC3 (i + 1))).text ∧
      lotC3.sanatci = (blockLines nodesC3 i).getD 0 "" ∧
      lotC3.eser_adi = (blockLines nodesC3 i).getD 1 "" ∧
      lotC3.detay = (blockLines nodesC3 i).getD 2 "" :=
  c3_field_mapping nodesC3 [] false upNone lotC3 (by decide)

/-- Witness for C4 on a concrete parsed lot carrying the spec's
example price line. -/
theorem c4_sale_price_witness :
    (∃ i, emitsAt nodesC4 i ∧
      lotC4.satis_fiyati = lastFiyat ((blockLines nodesC4 i).drop 2) ∧
      ((lotC4.satis_fiyati = "" ∧
          ∀ s ∈ (blockLines nodesC4 i).drop 2, is_fiyat s = false) ∨
       (is_fiyat lotC4.satis_fiyati = true ∧
          ∃ pre post, (blockLines nodesC4 i).drop 2 =
              pre ++ lotC4.satis_fiyati :: post ∧
            ∀ s ∈ post, is_fiyat s = false))) ∧
    lastFiyat (["Artist (1954)", "Oil on canvas", "60x80cm", "12,500 TL",
      "Signed lower right"].drop 2) = "12,500 TL" :=
  c4_sale_price nodesC4 [] false upNone lotC4 (by decide)

/-- Witness for C6: the two leading empty nodes stop collection with
nothing collected even though the text node `"Later"` follows. -/
theorem c6_double_empty_terminator_witness :
    collectLines nodesC6 0 [] = ([], 0) :=
  c6_double_empty_terminator nodesC6 [] 0 (by decide) (by decide) (by decide)
    (by decide) (by decide)

/-- Witness for C8: extraction of a blip-less element yields nothing,
and with an always-failing uploader the parse with uploads enabled
equals the upload-free parse. -/
theorem c8_asset_failures_witness :
    extract_image_bytes [] [] = none ∧
    parse nodesC8 [("rId9", some [7])] true upNone =
      parse nodesC8 [("rId9", some [7])] false upNone :=
  ⟨c8_asset_failures.1 [],
    c8_asset_failures.2.2.2.2.2.2.2 nodesC8 [("rId9", some [7])] upNone
      (fun _ _ => rfl) upNone⟩

example : is_fiyat "12,500 TL" = true := by decide
example : is_fiyat "5TL" = false := by decide
example : is_fiyat "60x80cm" = false := by decide
example : is_fiyat "1,tl" = true := by decide

example :
    parse [⟨"", true, []⟩, ⟨"O", false, []⟩, ⟨"A", false, []⟩] [] false
      (fun _ _ => none) =
    [Lot.mk 1 "O" "A" "" "" "" ""] := by decide
